import Mathlib

/-!
Shallow embedding of the PCG XSH-RR generator (`src/pcg.rs`).

Machine integers are modelled as `Nat` with explicit reduction modulo `2^64`
(for the `u64` state and increment) and `2^32` (for the `u32` output stage),
exactly where the Rust code's wrapping semantics would apply.
-/

namespace Pcg

/-- The `PcgRng` struct (`src/pcg.rs` lines 13-16): a 64-bit `state` and a
64-bit increment `inc`, both modelled as `Nat` values below `2^64`. -/
structure PcgRng where
  state : Nat
  inc : Nat
deriving DecidableEq, Repr

/-- Well-formedness: both fields fit in 64 bits, as the `u64` type guarantees
in the source. -/
def wf (g : PcgRng) : Prop := g.state < 2^64 ∧ g.inc < 2^64

instance (g : PcgRng) : Decidable (wf g) := by
  unfold wf; infer_instance

/-- `PcgRng::new_unseeded` (lines 24-29): fixed constants. -/
def new_unseeded : PcgRng :=
  { state := 0x853c49e6748fea9b, inc := 0xda3e39cb94b95bdb }

/-- `PcgRng::set_stream` (lines 32-34): `self.inc = id;`, state untouched. -/
def set_stream (g : PcgRng) (id : Nat) : PcgRng :=
  { g with inc := id }

/-- `PcgRng::with_stream` (lines 38-43): new generator, same `state`,
`inc = id`; `self` is borrowed immutably (here: a pure function of `g`). -/
def with_stream (g : PcgRng) (id : Nat) : PcgRng :=
  { state := g.state, inc := id }

/-- `PcgRng::next_u32` (lines 48-56).  Returns the output together with the
advanced generator.  `old.wrapping_mul(6364136223846793005).wrapping_add(inc)`
is `(old * 6364136223846793005 + inc) % 2^64`; the `as u32` cast is `% 2^32`;
`(0 as u64).wrapping_sub(rot)` is `(2^64 - rot) % 2^64`; the `u32` left shift
truncates to 32 bits.  (In the source, `old >> 59 as u32` parses as
`old >> (59 as u32)`, i.e. a plain right shift by 59.) -/
def next_u32 (g : PcgRng) : Nat × PcgRng :=
  let old := g.state
  let state₁ := (old * 6364136223846793005 + g.inc) % 2^64
  let xor := (((old >>> 18) ^^^ old) >>> 27) % 2^32
  let rot := old >>> 59
  let out := (xor >>> rot) ||| ((xor <<< (((2^64 - rot) % 2^64) &&& 31)) % 2^32)
  (out, { state := state₁, inc := g.inc })

/-- `SeedableRng::reseed` (lines 61-67): zero the state, install the odd
increment `(seed1 << 1) | 1` (the `u64` shift wraps modulo `2^64`), advance
once, add `seed0` (wrapping), advance again.  The `&mut self` receiver is
modelled by taking and discarding `g`, since every field is overwritten. -/
def reseed (_g : PcgRng) (seed0 seed1 : Nat) : PcgRng :=
  let g₁ : PcgRng := { state := 0, inc := ((seed1 <<< 1) % 2^64) ||| 1 }
  let g₂ := (next_u32 g₁).2
  let g₃ : PcgRng := { state := (g₂.state + seed0) % 2^64, inc := g₂.inc }
  (next_u32 g₃).2

/-- `SeedableRng::from_seed` (lines 70-74): `new_unseeded` then `reseed`. -/
def from_seed (seed0 seed1 : Nat) : PcgRng :=
  reseed new_unseeded seed0 seed1

/-- Draw `n` successive outputs, returning them in order together with the
final generator (models a sequence of `next_u32` calls, as in
`gen_iter().take(n)` of the tests). -/
def next_n (g : PcgRng) : Nat → List Nat × PcgRng
  | 0 => ([], g)
  | n+1 =>
    let p := next_u32 g
    let q := next_n p.2 n
    (p.1 :: q.1, q.2)

/-- 32-bit rotate-right as the specification words it:
`(x >>> r) ||| (x <<< ((-r) mod 32))`, where for `r ∈ [0, 31]` the
two's-complement negation modulo 32 is `(32 - r) % 32`, and the 32-bit left
shift truncates modulo `2^32`. -/
def rotr32 (x r : Nat) : Nat :=
  (x >>> r) ||| ((x <<< ((32 - r) % 32)) % 2^32)

/-! ### Helper lemmas -/

/-- The top five bits of a 64-bit value form a number below 32. -/
theorem shiftRight59_lt_32 {s : Nat} (h : s < 2^64) : s >>> 59 < 32 := by
  rw [Nat.shiftRight_eq_div_pow]
  exact Nat.div_lt_of_lt_mul (by calc s < 2^64 := h
                                   _ = 2^59 * 32 := by norm_num)

/-- The code's branch-free shift amount `((0 : u64) - r) & 31` agrees with the
mathematical `(32 - r) % 32` for every rotation amount `r < 32`. -/
theorem neg_mask_eq_rot : ∀ r < 32, ((2^64 - r) % 2^64) &&& 31 = (32 - r) % 32 := by
  decide

/-- Forcing the low bit with `| 1` always produces an odd number. -/
theorem lor_one_mod_two (v : Nat) : (v ||| 1) % 2 = 1 := by
  have h : (v ||| 1).testBit 0 = true := by simp
  simp only [Nat.testBit_zero, decide_eq_true_eq] at h
  exact h

/-- The output of `next_u32` always fits in 32 bits. -/
theorem next_u32_out_lt (g : PcgRng) : (next_u32 g).1 < 2^32 := by
  have h1 : (((g.state >>> 18) ^^^ g.state) >>> 27) % 2^32 < 2^32 :=
    Nat.mod_lt _ (by norm_num)
  refine Nat.or_lt_two_pow ?_ (Nat.mod_lt _ (by norm_num))
  calc ((((g.state >>> 18) ^^^ g.state) >>> 27) % 2^32) >>> (g.state >>> 59)
      ≤ (((g.state >>> 18) ^^^ g.state) >>> 27) % 2^32 := by
        rw [Nat.shiftRight_eq_div_pow]; exact Nat.div_le_self _ _
    _ < 2^32 := h1

/-- `next_u32` preserves well-formedness (the state is reduced mod `2^64` and
the increment is unchanged). -/
theorem next_u32_keeps_wf {g : PcgRng} (h : wf g) : wf (next_u32 g).2 := by
  constructor
  · show (g.state * 6364136223846793005 + g.inc) % 2^64 < 2^64
    exact Nat.mod_lt _ (by norm_num)
  · exact h.2

/-- Drawing any number of outputs keeps every output below `2^32` and keeps the
generator well-formed. -/
theorem next_n_keeps_wf {g : PcgRng} (h : wf g) (n : Nat) :
    (∀ o ∈ (next_n g n).1, o < 2^32) ∧ wf (next_n g n).2 := by
  induction n generalizing g with
  | zero => exact ⟨by intro o ho; simp [next_n] at ho, h⟩
  | succ n ih =>
    have h1 := next_u32_out_lt g
    have h2 := next_u32_keeps_wf h
    have h3 := ih h2
    refine ⟨?_, h3.2⟩
    intro o ho
    simp only [next_n, List.mem_cons] at ho
    rcases ho with ho | ho
    · exact ho ▸ h1
    · exact h3.1 o ho

/-- `reseed` always produces a well-formed generator, whatever the seeds. -/
theorem reseed_keeps_wf (g : PcgRng) (seed0 seed1 : Nat) : wf (reseed g seed0 seed1) := by
  apply next_u32_keeps_wf
  constructor
  · show (_ + seed0) % 2^64 < 2^64
    exact Nat.mod_lt _ (by norm_num)
  · show ((seed1 <<< 1) % 2^64) ||| 1 < 2^64
    exact Nat.or_lt_two_pow (Nat.mod_lt _ (by norm_num)) (by norm_num)

/-- XOR with bit 63 does not change a number modulo `2^63`. -/
theorem xor_msb_mod (s : Nat) : (s ^^^ 2^63) % 2^63 = s % 2^63 := by
  apply Nat.eq_of_testBit_eq
  intro i
  rw [Nat.testBit_mod_two_pow, Nat.testBit_mod_two_pow, Nat.testBit_xor]
  by_cases h : i < 63
  · rw [Nat.testBit_two_pow_of_ne (show 63 ≠ i by omega)]
    simp
  · simp [h]

/-- Consequently the wrapped `u64` left shift by one also erases bit 63. -/
theorem shiftLeft_one_mod_eq (s : Nat) :
    ((s ^^^ 2^63) <<< 1) % 2^64 = (s <<< 1) % 2^64 := by
  rw [Nat.shiftLeft_eq, Nat.shiftLeft_eq]
  have h64 : (2:Nat)^64 = 2^63 * 2 := by norm_num
  rw [h64, pow_one, Nat.mul_mod_mul_right, Nat.mul_mod_mul_right, xor_msb_mod]

/-! ### Claim theorems -/

/-- C1: for a generator with a 64-bit state, `next_u32` returns the 32-bit
rotate-right of `xorshifted = (((old >> 18) ^ old) >> 27) mod 2^32` by
`rot = old >> 59 ∈ [0, 31]`, with the rotate computed as
`(x >> r) | (x << ((-r) mod 32))` so that `rot = 0` leaves `xorshifted`
unchanged; its only state change is `state := (old * 6364136223846793005 +
inc) mod 2^64`, the increment being untouched. -/
theorem C1_next_u32_xsh_rr (g : PcgRng) (hs : g.state < 2^64) :
    (next_u32 g).1 =
      rotr32 ((((g.state >>> 18) ^^^ g.state) >>> 27) % 2^32) (g.state >>> 59) ∧
    g.state >>> 59 < 32 ∧
    rotr32 ((((g.state >>> 18) ^^^ g.state) >>> 27) % 2^32) 0
      = (((g.state >>> 18) ^^^ g.state) >>> 27) % 2^32 ∧
    (next_u32 g).2.state = (g.state * 6364136223846793005 + g.inc) % 2^64 ∧
    (next_u32 g).2.inc = g.inc := by
  have hrot : g.state >>> 59 < 32 := shiftRight59_lt_32 hs
  refine ⟨?_, hrot, ?_, rfl, rfl⟩
  · show _ ||| ((_ <<< (((2^64 - g.state >>> 59) % 2^64) &&& 31)) % 2^32) = _
    rw [neg_mask_eq_rot _ hrot]
    rfl
  · unfold rotr32
    rw [Nat.shiftRight_zero, Nat.sub_zero, Nat.mod_self, Nat.shiftLeft_zero,
      Nat.mod_mod_of_dvd _ dvd_rfl, Nat.or_self]

/-- Witness for C1: the theorem applied to the unseeded default generator. -/
theorem C1_next_u32_xsh_rr_witness :
    new_unseeded.state < 2^64 ∧
    (next_u32 new_unseeded).1 =
      rotr32 ((((new_unseeded.state >>> 18) ^^^ new_unseeded.state) >>> 27) % 2^32)
        (new_unseeded.state >>> 59) :=
  ⟨by decide, (C1_next_u32_xsh_rr new_unseeded (by decide)).1⟩

/-- C2: seeding with `(42, 54)` and drawing six outputs yields exactly the
pcg32 demo vector. -/
theorem C2_demo_vector :
    (next_n (from_seed 42 54) 6).1 =
      [0xa15c02b7, 0x7b47f409, 0xba1d3330, 0x83d2f293, 0xbfa4784b, 0xcbed606e] := by
  decide

/-- C3: `reseed` performs exactly: state := 0; inc := `(seed1 << 1) | 1`; one
discarded advance; state += seed0 (wrapping); one more discarded advance — and
the resulting increment is always odd. -/
theorem C3_reseed_sequence (g : PcgRng) (seed0 seed1 : Nat) :
    (reseed g seed0 seed1 =
      (next_u32
        { state :=
            ((next_u32 { state := 0, inc := ((seed1 <<< 1) % 2^64) ||| 1 }).2.state
              + seed0) % 2^64,
          inc :=
            (next_u32 { state := 0, inc := ((seed1 <<< 1) % 2^64) ||| 1 }).2.inc }).2) ∧
    (reseed g seed0 seed1).inc % 2 = 1 := by
  refine ⟨rfl, ?_⟩
  have h : (reseed g seed0 seed1).inc = ((seed1 <<< 1) % 2^64) ||| 1 := rfl
  rw [h]
  exact lor_one_mod_two _

/-- C4: totality/safety: on any well-formed generator the output of `next_u32`
fits in 32 bits and well-formedness is preserved; both variable `u32` shift
amounts stay below 32; seeding with any words (all-ones included) yields a
well-formed generator; and any number of draws keeps all outputs in the 32-bit
domain with the generator well-formed. -/
theorem C4_totality (g : PcgRng) (n seed0 seed1 : Nat) (hg : wf g) :
    (next_u32 g).1 < 2^32 ∧ wf (next_u32 g).2 ∧
    g.state >>> 59 < 32 ∧
    ((2^64 - g.state >>> 59) % 2^64) &&& 31 < 32 ∧
    wf (from_seed seed0 seed1) ∧ wf (reseed g seed0 seed1) ∧
    (∀ o ∈ (next_n g n).1, o < 2^32) ∧ wf (next_n g n).2 := by
  have hrot : g.state >>> 59 < 32 := shiftRight59_lt_32 hg.1
  have hmask : ((2^64 - g.state >>> 59) % 2^64) &&& 31 < 32 := by
    rw [neg_mask_eq_rot _ hrot]
    exact Nat.mod_lt _ (by norm_num)
  exact ⟨next_u32_out_lt g, next_u32_keeps_wf hg, hrot, hmask,
    reseed_keeps_wf new_unseeded seed0 seed1, reseed_keeps_wf g seed0 seed1,
    (next_n_keeps_wf hg n).1, (next_n_keeps_wf hg n).2⟩

/-- Witness for C4: the theorem applied at the boundary state `2^64 - 1` with
the all-ones seed word of the `overflow` test. -/
theorem C4_totality_witness :
    wf (PcgRng.mk (2^64 - 1) 55) ∧
    (next_u32 (PcgRng.mk (2^64 - 1) 55)).1 < 2^32 :=
  ⟨by decide, (C4_totality (PcgRng.mk (2^64 - 1) 55) 3 (2^64 - 1) 54 (by decide)).1⟩

/-- C5: `from_seed` is exactly default construction followed by `reseed`, the
default holding the documented constants. -/
theorem C5_from_seed_refines (seed0 seed1 : Nat) :
    from_seed seed0 seed1 = reseed new_unseeded seed0 seed1 ∧
    new_unseeded.state = 0x853c49e6748fea9b ∧
    new_unseeded.inc = 0xda3e39cb94b95bdb :=
  ⟨rfl, rfl, rfl⟩

/-- C6: default construction always yields exactly the documented constants;
hence any two default-constructed generators are field-for-field equal and
give identical first outputs (the constructor is a pure constant). -/
theorem C6_unseeded_constants :
    new_unseeded = { state := 0x853c49e6748fea9b, inc := 0xda3e39cb94b95bdb } ∧
    new_unseeded = new_unseeded ∧
    (next_u32 new_unseeded).1 = (next_u32 new_unseeded).1 :=
  ⟨rfl, rfl, rfl⟩

/-- C7: `set_stream` sets the increment to exactly `id` (no parity forcing)
and leaves the state unchanged; `with_stream` returns a new generator with the
caller's state and increment exactly `id` (it is a pure function of `g`, so
`g` itself is untouched). -/
theorem C7_stream_ops (g : PcgRng) (id : Nat) :
    set_stream g id = { state := g.state, inc := id } ∧
    with_stream g id = { state := g.state, inc := id } :=
  ⟨rfl, rfl⟩

/-- C8: there is a state and two distinct odd increments whose generators
produce different output sequences within the first two draws. -/
theorem C8_streams_diverge :
    ∃ s i1 i2 : Nat, i1 % 2 = 1 ∧ i2 % 2 = 1 ∧ i1 ≠ i2 ∧
      (next_n { state := s, inc := i1 } 2).1 ≠ (next_n { state := s, inc := i2 } 2).1 :=
  ⟨42, 109, 0xda3e39cb94b95bdb, by decide, by decide, by decide, by decide⟩

/-- C9: the output of `next_u32` is a function of the pre-advance state alone:
two generators sharing a state agree on their first draw whatever their
increments, so streams can first diverge no earlier than the second draw. -/
theorem C9_first_output_independent_of_inc (s i1 i2 : Nat) :
    (next_u32 { state := s, inc := i1 }).1 = (next_u32 { state := s, inc := i2 }).1 ∧
    (next_n { state := s, inc := i1 } 1).1 = (next_n { state := s, inc := i2 } 1).1 :=
  ⟨rfl, rfl⟩

/-- C10: `(seed1 << 1) | 1` discards seed1's top bit, so `reseed` (and hence
`from_seed`) collide on seed pairs differing only in bit 63 of `seed1`, and
every subsequent output of the two generators coincides. -/
theorem C10_seed1_msb_discarded (g : PcgRng) (seed0 seed1 : Nat) :
    reseed g seed0 (seed1 ^^^ 2^63) = reseed g seed0 seed1 ∧
    from_seed seed0 (seed1 ^^^ 2^63) = from_seed seed0 seed1 ∧
    ∀ n : Nat, (next_n (from_seed seed0 (seed1 ^^^ 2^63)) n).1
             = (next_n (from_seed seed0 seed1) n).1 := by
  have h := shiftLeft_one_mod_eq seed1
  have h1 : ∀ g₀ : PcgRng, reseed g₀ seed0 (seed1 ^^^ 2^63) = reseed g₀ seed0 seed1 := by
    intro g₀
    unfold reseed
    rw [h]
  have h2 : from_seed seed0 (seed1 ^^^ 2^63) = from_seed seed0 seed1 := h1 new_unseeded
  exact ⟨h1 g, h2, fun n => by rw [h2]⟩

end Pcg
